import Mathlib

/-!
Verification of the LoRA multi-source acquisition and composition logic of
`predict.py` (a Cog predictor wrapping a Stable-Diffusion pipeline).

Strings of the Python source are modelled as `List Char`; Python `float`
scale values are modelled as `ℚ`; the stateful pipeline object is modelled
by explicit state passing together with an event trace; calls that can
raise are modelled with `Except`.
-/

set_option maxHeartbeats 1000000

namespace CyberPony

/-! ### `truncate_prompt` (predict.py lines 29-38)

`prompt.split()` splits on runs of Python whitespace (the characters
`str.isspace()` accepts) and drops empty chunks;
`" ".join(words[:max_tokens])` re-joins with single spaces. -/

/-- The characters Python's `str.split()` (no separator) splits on: exactly
those with `str.isspace()` true — the ASCII control whitespace `\t\n\v\f\r`,
the space, the information separators `\x1c`-`\x1f`, NEL `\x85`, NBSP
`\xa0`, Ogham space mark, the `\u2000`-`\u200a` spaces, the line and
paragraph separators, narrow no-break space, medium mathematical space, and
ideographic space. -/
def isSpaceChar (c : Char) : Bool :=
  (decide (0x09 ≤ c.toNat) && decide (c.toNat ≤ 0x0d)) ||
  decide (c.toNat = 0x20) ||
  (decide (0x1c ≤ c.toNat) && decide (c.toNat ≤ 0x1f)) ||
  decide (c.toNat = 0x85) || decide (c.toNat = 0xa0) ||
  decide (c.toNat = 0x1680) ||
  (decide (0x2000 ≤ c.toNat) && decide (c.toNat ≤ 0x200a)) ||
  decide (c.toNat = 0x2028) || decide (c.toNat = 0x2029) ||
  decide (c.toNat = 0x202f) || decide (c.toNat = 0x205f) ||
  decide (c.toNat = 0x3000)

/-- One `foldr` step of the splitter: a whitespace character opens a fresh
(empty) chunk, a non-whitespace character is prepended to the current chunk. -/
def splitStep (c : Char) (acc : List (List Char)) : List (List Char) :=
  if isSpaceChar c then [] :: acc
  else
    match acc with
    | [] => [[c]]
    | w :: ws => (c :: w) :: ws

/-- Maximal chunks of a character list delimited by whitespace; chunks may be
empty only transiently (the head), empties are removed by `pySplit`. -/
def chunksOf (l : List Char) : List (List Char) :=
  l.foldr splitStep []

/-- Python `s.split()`: whitespace-delimited words, empty chunks dropped. -/
def pySplit (l : List Char) : List (List Char) :=
  (chunksOf l).filter (fun w => !w.isEmpty)

/-- Python `" ".join(ws)`. -/
def joinSpace : List (List Char) → List Char
  | [] => []
  | [w] => w
  | w :: ws => w ++ ' ' :: joinSpace ws

/-- Function `truncate_prompt` from predict.py: return the prompt unchanged when it has
at most `max_tokens` whitespace-separated words, else the first `max_tokens`
words joined by single spaces. -/
def truncate_prompt (prompt : List Char) (max_tokens : Nat) : List Char :=
  let words := pySplit prompt
  if words.length ≤ max_tokens then prompt
  else joinSpace (words.take max_tokens)

/-! Auxiliary lemmas about the splitter. -/

theorem chunksOf_nil : chunksOf [] = [] := rfl

theorem chunksOf_cons (c : Char) (l : List Char) :
    chunksOf (c :: l) = splitStep c (chunksOf l) := rfl

theorem chunksOf_append (a l : List Char) :
    chunksOf (a ++ l) = a.foldr splitStep (chunksOf l) := by
  simp [chunksOf, List.foldr_append]

/-- Every character of every chunk is non-whitespace. -/
theorem chunksOf_no_space (l : List Char) :
    ∀ w ∈ chunksOf l, ∀ c ∈ w, isSpaceChar c = false := by
  induction l with
  | nil => intro w hw; simp [chunksOf] at hw
  | cons c l ih =>
    intro w hw
    rw [chunksOf_cons] at hw
    unfold splitStep at hw
    by_cases hc : isSpaceChar c
    · simp [hc] at hw
      rcases hw with rfl | hw
      · intro d hd; simp at hd
      · exact ih w hw
    · rcases hchunks : chunksOf l with _ | ⟨w₀, ws⟩ <;> rw [hchunks] at hw
      · simp [hc] at hw
        subst hw
        intro d hd
        simp at hd
        subst hd
        simpa using hc
      · simp [hc] at hw
        rcases hw with rfl | hw
        · intro d hd
          rcases List.mem_cons.mp hd with rfl | hd'
          · simpa using hc
          · exact ih w₀ (by rw [hchunks]; simp) d hd'
        · exact ih w (by rw [hchunks]; simp [hw])

/-- Folding a whitespace-free word over a non-empty chunk accumulator prepends
the word to the head chunk. -/
theorem foldr_splitStep_word (w : List Char) (hw : ∀ c ∈ w, isSpaceChar c = false)
    (h : List Char) (t : List (List Char)) :
    w.foldr splitStep (h :: t) = (w ++ h) :: t := by
  induction w with
  | nil => simp
  | cons c w ih =>
    have hc : isSpaceChar c = false := hw c (by simp)
    have hw' : ∀ d ∈ w, isSpaceChar d = false := fun d hd => hw d (by simp [hd])
    simp only [List.foldr_cons, ih hw']
    unfold splitStep
    simp [hc]

/-- A non-empty whitespace-free word splits into exactly itself. -/
theorem chunksOf_word (w : List Char) (hw : ∀ c ∈ w, isSpaceChar c = false)
    (hne : w ≠ []) : chunksOf w = [w] := by
  induction w with
  | nil => exact absurd rfl hne
  | cons c w ih =>
    have hc : isSpaceChar c = false := hw c (by simp)
    have hw' : ∀ d ∈ w, isSpaceChar d = false := fun d hd => hw d (by simp [hd])
    rcases w with _ | ⟨d, w'⟩
    · simp [chunksOf, splitStep, hc]
    · rw [chunksOf_cons, ih hw' (by simp)]
      unfold splitStep
      simp [hc]

/-- Splitting is the left inverse of joining for lists of non-empty
whitespace-free words. -/
theorem pySplit_joinSpace (ws : List (List Char))
    (hne : ∀ w ∈ ws, w ≠ [])
    (hsp : ∀ w ∈ ws, ∀ c ∈ w, isSpaceChar c = false) :
    pySplit (joinSpace ws) = ws := by
  induction ws with
  | nil => rfl
  | cons w ws ih =>
    rcases ws with _ | ⟨w₂, ws'⟩
    · have h1 := hne w (by simp)
      have h2 := hsp w (by simp)
      show pySplit (joinSpace [w]) = [w]
      unfold joinSpace pySplit
      rw [chunksOf_word w h2 h1]
      simp [List.isEmpty_iff, h1]
    · have hjoin : joinSpace (w :: w₂ :: ws') = w ++ ' ' :: joinSpace (w₂ :: ws') := rfl
      have hw1 := hne w (by simp)
      have hw2 := hsp w (by simp)
      unfold pySplit
      rw [hjoin, chunksOf_append]
      have hsp' : isSpaceChar ' ' = true := by decide
      have hcons : chunksOf (' ' :: joinSpace (w₂ :: ws')) =
          [] :: chunksOf (joinSpace (w₂ :: ws')) := by
        rw [chunksOf_cons]; unfold splitStep; simp [hsp']
      rw [hcons, foldr_splitStep_word w hw2]
      simp only [List.append_nil, List.filter_cons]
      have hkeep : (!w.isEmpty) = true := by simp [List.isEmpty_iff, hw1]
      have ihr : pySplit (joinSpace (w₂ :: ws')) = w₂ :: ws' :=
        ih (fun u hu => hne u (by simp [hu])) (fun u hu => hsp u (by simp [hu]))
      unfold pySplit at ihr
      rw [hkeep, ihr]
      simp

/-- Claim C10 helper: every word of `pySplit l` is non-empty. -/
theorem pySplit_ne_nil (l : List Char) : ∀ w ∈ pySplit l, w ≠ [] := by
  intro w hw
  unfold pySplit at hw
  have := List.of_mem_filter hw
  simpa [List.isEmpty_iff] using this

/-- Claim C10 helper: every word of `pySplit l` is whitespace-free. -/
theorem pySplit_no_space (l : List Char) :
    ∀ w ∈ pySplit l, ∀ c ∈ w, isSpaceChar c = false := by
  intro w hw
  unfold pySplit at hw
  exact chunksOf_no_space l w (List.mem_of_mem_filter hw)

/-- A prompt with at most 75 words is returned unchanged (75 being the
`max_tokens` default `predict` uses). -/
theorem truncate_prompt_of_short (p : List Char) (h : (pySplit p).length ≤ 75) :
    truncate_prompt p 75 = p := by
  unfold truncate_prompt; simp [h]

/-- C10: `truncate_prompt` returns a prompt with at most 75 whitespace-separated
words for every input; inputs with at most 75 words are returned unchanged;
longer inputs are cut to their first 75 words joined by single spaces; and the
function is idempotent. -/
theorem truncate_prompt_spec (p : List Char) :
    (pySplit (truncate_prompt p 75)).length ≤ 75 ∧
    ((pySplit p).length ≤ 75 → truncate_prompt p 75 = p) ∧
    (75 < (pySplit p).length →
      truncate_prompt p 75 = joinSpace ((pySplit p).take 75)) ∧
    truncate_prompt (truncate_prompt p 75) 75 = truncate_prompt p 75 := by
  have hsplit_trunc : 75 < (pySplit p).length →
      pySplit (joinSpace ((pySplit p).take 75)) = (pySplit p).take 75 := by
    intro _
    exact pySplit_joinSpace _
      (fun w hw => pySplit_ne_nil p w (List.mem_of_mem_take hw))
      (fun w hw => pySplit_no_space p w (List.mem_of_mem_take hw))
  by_cases h : (pySplit p).length ≤ 75
  · have heq : truncate_prompt p 75 = p := truncate_prompt_of_short p h
    refine ⟨by rw [heq]; exact h, fun _ => heq, fun hgt => absurd h (by omega), ?_⟩
    rw [heq, heq]
  · push_neg at h
    have heq : truncate_prompt p 75 = joinSpace ((pySplit p).take 75) := by
      unfold truncate_prompt
      rw [if_neg (by omega)]
    have hlen : (pySplit (truncate_prompt p 75)).length ≤ 75 := by
      rw [heq, hsplit_trunc h]
      simp
    exact ⟨hlen, fun hle => absurd hle (by omega), fun _ => heq,
      truncate_prompt_of_short _ hlen⟩

/-- C10 witness: a concrete 76-word prompt is truncated to its first 75 words. -/
theorem truncate_prompt_spec_witness :
    75 < (pySplit (joinSpace (List.replicate 76 (['w'])))).length ∧
    truncate_prompt (joinSpace (List.replicate 76 (['w']))) 75 =
      joinSpace ((pySplit (joinSpace (List.replicate 76 (['w'])))).take 75) :=
  ⟨by decide, (truncate_prompt_spec (joinSpace (List.replicate 76 (['w'])))).2.2.1 (by decide)⟩

/-! ### LoRA identifier matching (predict.py lines 244-290)

The Python code classifies each `hf_lora` string with a first-match chain of
`re.match` tests.  We model the anchored regexes by deterministic
prefix-consuming matchers over `List Char`; as argued below each regex used by
the source is deterministic (every `+`-class is followed by a character
outside the class), so no backtracking is needed. -/

/-- Convert a string literal to the character-list representation. -/
def toL (s : String) : List Char := s.toList

/-- Consume an exact literal prefix and return the rest. -/
def lit : List Char → List Char → Option (List Char)
  | [], l => some l
  | _ :: _, [] => none
  | p :: ps, c :: cs => if c = p then lit ps cs else none

/-- Consume one arbitrary character (regex `.`, which `re` matches against
any character except a newline; the patterns here never meet newlines in the
positions matched by `.`, and the distinction is irrelevant to every claim,
so we let it consume any character). -/
def anyChar : List Char → Option (List Char)
  | [] => none
  | _ :: cs => some cs

/-- Consume a non-empty maximal run of characters satisfying `p`
(regex `[...]+` for a class `p` whose follower in the pattern is outside the
class, which makes the greedy match exact). -/
def plusOf (p : Char → Bool) (l : List Char) : Option (List Char) :=
  match l.takeWhile p with
  | [] => none
  | _ :: _ => some (l.dropWhile p)

/-- The character class `[a-zA-Z0-9_-]` used by all the slug regexes. -/
def slugChar (c : Char) : Bool :=
  c.isAlpha || c.isDigit || c = '_' || c = '-'

/-- Consume the `https?://` prefix (regex `^https?://`).  After the literal
`http`, an `s` is consumed iff present; since `://` cannot start with `s`,
this is equivalent to the regex alternation. -/
def httpPfx (l : List Char) : Option (List Char) :=
  match lit (toL (r"http")) l with
  | none => none
  | some r =>
    if r.head? = some 's' then lit (toL (r"://")) r.tail
    else lit (toL (r"://")) r

/-- Regex `$` without `re.MULTILINE`: succeeds at the end of the input or
just before a single trailing newline, so `re.match(r"...$", s)` also
accepts an `s` ending in one `'\n'`. -/
def endAnchor (l : List Char) : Option Unit :=
  if l = [] ∨ l = ['\n'] then some () else none

/-- Matcher for `re.match(r"^[a-zA-Z0-9_-]+/[a-zA-Z0-9_-]+$", hf_lora)`:
a HuggingFace owner/name slug (the `$` tolerating one trailing newline). -/
def matchHFSlug (l : List Char) : Bool :=
  ((plusOf slugChar l).bind (lit (toL (r"/")))
    |>.bind (plusOf slugChar)
    |>.bind endAnchor).isSome

/-- Matcher for `re.match(r"^https?://replicate.delivery/[a-zA-Z0-9_-]+/[a-zA-Z0-9_-]+/trained_model.tar", hf_lora)`. -/
def matchReplicate (l : List Char) : Bool :=
  ((httpPfx l).bind (lit (toL (r"replicate")))
    |>.bind anyChar
    |>.bind (lit (toL (r"delivery/")))
    |>.bind (plusOf slugChar)
    |>.bind (lit (toL (r"/")))
    |>.bind (plusOf slugChar)
    |>.bind (lit (toL (r"/trained_model")))
    |>.bind anyChar
    |>.bind (lit (toL (r"tar")))).isSome

/-- Matcher for `re.match(r"^https?://huggingface.co", hf_lora)`. -/
def matchHFUrlHost (l : List Char) : Bool :=
  ((httpPfx l).bind (lit (toL (r"huggingface")))
    |>.bind anyChar
    |>.bind (lit (toL (r"co")))).isSome

/-- Capture a non-empty run of slug characters (one group of the
`re.search` capture below). -/
def captureSlugRun (l : List Char) : Option (List Char × List Char) :=
  match l.takeWhile slugChar with
  | [] => none
  | a => some (a, l.dropWhile slugChar)

/-- Model of `re.search(r"^https?://huggingface.co/([a-zA-Z0-9_-]+/[a-zA-Z0-9_-]+)", hf_lora)`
returning `group(1)` (`none` models `re.search` returning `None`, on which
the subsequent `.group(1)` raises `AttributeError`). -/
def hfUrlSlug (l : List Char) : Option (List Char) :=
  ((httpPfx l).bind (lit (toL (r"huggingface")))
    |>.bind anyChar
    |>.bind (lit (toL (r"co/")))
    |>.bind captureSlugRun).bind fun p =>
    ((lit (toL (r"/")) p.2).bind captureSlugRun).bind fun q =>
      some (p.1 ++ '/' :: q.1)

/-- Python `hf_lora.split('/')[-1]`: the suffix after the last `/` (the whole string
when it has no `/`). -/
def lastComponent (l : List Char) : List Char :=
  (l.reverse.takeWhile (fun c => c != '/')).reverse

/-- Matcher for `re.match(r"^https?://civitai.com/api/download/models/[0-9]+\?type=Model&format=SafeTensor", hf_lora)`. -/
def matchCivitai (l : List Char) : Bool :=
  ((httpPfx l).bind (lit (toL (r"civitai")))
    |>.bind anyChar
    |>.bind (lit (toL (r"com/api/download/models/")))
    |>.bind (plusOf Char.isDigit)
    |>.bind (lit (toL (r"?type=Model&format=SafeTensor")))).isSome

/-- Boolean prefix test. -/
def isPrefixSeq : List Char → List Char → Bool
  | [], _ => true
  | _ :: _, [] => false
  | c :: cs, d :: ds => c = d && isPrefixSeq cs ds

/-- Python `s.endswith(suf)`. -/
def endsWith (suf l : List Char) : Bool :=
  isPrefixSeq suf.reverse l.reverse

/-- Test `hf_lora.endswith('.safetensors')`. -/
def endsWithSafetensors (l : List Char) : Bool :=
  endsWith (toL (r".safetensors")) l

/-! ### Combinator inversion lemmas -/

theorem lit_eq_some {pat l res : List Char} :
    lit pat l = some res ↔ l = pat ++ res := by
  induction pat generalizing l with
  | nil => simp [lit]
  | cons p ps ih =>
    cases l with
    | nil => simp [lit]
    | cons c cs =>
      by_cases hc : c = p
      · subst hc
        simp [lit, ih]
      · simp only [lit, if_neg hc, List.cons_append]
        refine ⟨fun h => absurd h (by simp), fun h => ?_⟩
        injection h with h1 _
        exact absurd h1 hc

theorem lit_self (pat t : List Char) : lit pat (pat ++ t) = some t :=
  lit_eq_some.mpr rfl

theorem anyChar_eq_some {l res : List Char} :
    anyChar l = some res ↔ ∃ c, l = c :: res := by
  cases l with
  | nil => simp [anyChar]
  | cons c cs => simp [anyChar, eq_comm]

theorem mem_takeWhile_sat {p : Char → Bool} {l : List Char} :
    ∀ c ∈ l.takeWhile p, p c = true := by
  induction l with
  | nil => simp
  | cons d l ih =>
    intro c hc
    rw [List.takeWhile_cons] at hc
    by_cases hd : p d
    · rw [if_pos hd] at hc
      rcases List.mem_cons.mp hc with rfl | hc
      · exact hd
      · exact ih c hc
    · rw [if_neg hd] at hc; simp at hc

theorem takeWhile_append_all {p : Char → Bool} {a : List Char}
    (ha : ∀ c ∈ a, p c = true) (r : List Char) :
    (a ++ r).takeWhile p = a ++ r.takeWhile p := by
  induction a with
  | nil => simp
  | cons c a ih =>
    have hc : p c = true := ha c (by simp)
    simp only [List.cons_append, List.takeWhile_cons, hc, if_pos]
    rw [ih (fun d hd => ha d (by simp [hd]))]

theorem dropWhile_append_all {p : Char → Bool} {a : List Char}
    (ha : ∀ c ∈ a, p c = true) (r : List Char) :
    (a ++ r).dropWhile p = r.dropWhile p := by
  induction a with
  | nil => simp
  | cons c a ih =>
    have hc : p c = true := ha c (by simp)
    simp only [List.cons_append, List.dropWhile_cons, hc, if_pos]
    exact ih (fun d hd => ha d (by simp [hd]))

theorem takeWhile_cons_neg {p : Char → Bool} {x : List Char} {c : Char}
    (hc : p c = false) : (c :: x).takeWhile p = [] := by
  simp [List.takeWhile_cons, hc]

theorem dropWhile_cons_neg {p : Char → Bool} {x : List Char} {c : Char}
    (hc : p c = false) : (c :: x).dropWhile p = c :: x := by
  simp [List.dropWhile_cons, hc]

theorem plusOf_eq_some {p : Char → Bool} {l res : List Char}
    (h : plusOf p l = some res) :
    ∃ a, a ≠ [] ∧ (∀ c ∈ a, p c = true) ∧ l = a ++ res := by
  unfold plusOf at h
  rcases ht : l.takeWhile p with _ | ⟨c, a⟩ <;> rw [ht] at h
  · simp at h
  · refine ⟨c :: a, by simp, ?_, ?_⟩
    · intro d hd
      exact mem_takeWhile_sat d (ht ▸ hd)
    · simp at h
      rw [← h, ← ht, List.takeWhile_append_dropWhile]

/-- A non-empty all-`p` run followed by a character outside the class is
consumed exactly (this is what makes the source's greedy `+` matches exact). -/
theorem plusOf_append_stop {p : Char → Bool} {a : List Char} {x : Char}
    (hne : a ≠ []) (ha : ∀ c ∈ a, p c = true) (hx : p x = false)
    (r : List Char) : plusOf p (a ++ x :: r) = some (x :: r) := by
  unfold plusOf
  rw [takeWhile_append_all ha, takeWhile_cons_neg hx, List.append_nil,
    dropWhile_append_all ha, dropWhile_cons_neg hx]
  rcases a with _ | ⟨c, a⟩
  · exact absurd rfl hne
  · rfl

/-- A whole-input all-`p` non-empty run is consumed exactly. -/
theorem plusOf_all {p : Char → Bool} {a : List Char}
    (hne : a ≠ []) (ha : ∀ c ∈ a, p c = true) : plusOf p a = some [] := by
  have := plusOf_append_stop (p := p) (a := a) (x := '\x00') hne ha
  unfold plusOf
  have ht : a.takeWhile p = a := by
    rw [← List.append_nil a, takeWhile_append_all ha, List.takeWhile_nil]
  have hd : a.dropWhile p = [] := by
    rw [← List.append_nil a, dropWhile_append_all ha, List.dropWhile_nil]
  rw [ht, hd]
  rcases a with _ | ⟨c, a⟩
  · exact absurd rfl hne
  · rfl

/-! ### Declarative shapes of the five recognised identifier forms -/

/-- Holds when `l` begins with `http://` or `https://` followed by `tail`. -/
def SchemePfx (l tail : List Char) : Prop :=
  l = toL (r"http://") ++ tail ∨ l = toL (r"https://") ++ tail

theorem httpPfx_eq_some {l res : List Char} :
    httpPfx l = some res ↔ SchemePfx l res := by
  constructor
  · intro h
    unfold httpPfx at h
    rcases h0 : lit (toL (r"http")) l with _ | r0 <;> rw [h0] at h
    · simp at h
    · have hl : l = toL (r"http") ++ r0 := lit_eq_some.mp h0
      dsimp only at h
      by_cases hs : r0.head? = some 's'
      · rw [if_pos hs] at h
        rcases r0 with _ | ⟨c, r1⟩
        · simp at hs
        · simp only [List.head?_cons, Option.some.injEq] at hs
          subst hs
          simp only [List.tail_cons] at h
          have h2 : r1 = toL (r"://") ++ res := lit_eq_some.mp h
          right
          rw [hl, h2]
          rfl
      · rw [if_neg hs] at h
        have h2 : r0 = toL (r"://") ++ res := lit_eq_some.mp h
        left
        rw [hl, h2]
        rfl
  · rintro (rfl | rfl)
    · show httpPfx (toL (r"http://") ++ res) = some res
      rfl
    · show httpPfx (toL (r"https://") ++ res) = some res
      rfl

/-- Shape of a HuggingFace owner/name slug; the regex's end anchor `$`
also accepts a single trailing newline after the slug. -/
def IsHFSlugShape (l : List Char) : Prop :=
  ∃ a b, a ≠ [] ∧ b ≠ [] ∧ (∀ c ∈ a, slugChar c = true) ∧
    (∀ c ∈ b, slugChar c = true) ∧
    (l = a ++ '/' :: b ∨ l = a ++ '/' :: (b ++ ['\n']))

/-- Shape of a Replicate `trained_model.tar` delivery URL (the two `.` of the
source pattern are regex wildcards `x`, `y`; the match is unanchored at the
end, hence the arbitrary `rest`). -/
def IsReplicateShape (l : List Char) : Prop :=
  ∃ x a b y rest, a ≠ [] ∧ b ≠ [] ∧ (∀ c ∈ a, slugChar c = true) ∧
    (∀ c ∈ b, slugChar c = true) ∧
    SchemePfx l (toL (r"replicate") ++ x :: (toL (r"delivery/") ++
      (a ++ '/' :: (b ++ '/' :: (toL (r"trained_model") ++ y ::
        (toL (r"tar") ++ rest))))))

/-- Shape of any URL whose host part matches `huggingface.co`. -/
def IsHFUrlPrefixShape (l : List Char) : Prop :=
  ∃ x rest, SchemePfx l (toL (r"huggingface") ++ x :: (toL (r"co") ++ rest))

/-- Shape of a Civitai model-download URL. -/
def IsCivitaiShape (l : List Char) : Prop :=
  ∃ x d rest, d ≠ [] ∧ (∀ c ∈ d, c.isDigit = true) ∧
    SchemePfx l (toL (r"civitai") ++ x :: (toL (r"com/api/download/models/") ++
      (d ++ (toL (r"?type=Model&format=SafeTensor") ++ rest))))

/-- Shape of an identifier ending in `.safetensors`. -/
def SafetensorsSuffix (l : List Char) : Prop :=
  ∃ a, l = a ++ toL (r".safetensors")

/-! ### Matchers decide exactly their declarative shapes -/

theorem anyChar_cons (c : Char) (l : List Char) : anyChar (c :: l) = some l := rfl

theorem slugChar_slash : slugChar '/' = false := by decide

theorem slugChar_newline : slugChar '\n' = false := by decide

theorem matchHFSlug_iff {l : List Char} :
    matchHFSlug l = true ↔ IsHFSlugShape l := by
  constructor
  · intro h
    unfold matchHFSlug at h
    rw [Option.isSome_iff_exists] at h
    obtain ⟨u, h⟩ := h
    simp only [Option.bind_eq_some] at h
    obtain ⟨r3, ⟨r2, ⟨r1, hplus1, hlit⟩, hplus2⟩, hend⟩ := h
    obtain ⟨a, hane, haall, ha⟩ := plusOf_eq_some hplus1
    obtain ⟨b, hbne, hball, hb⟩ := plusOf_eq_some hplus2
    have h1 : r1 = toL (r"/") ++ r2 := lit_eq_some.mp hlit
    have h3 : r3 = [] ∨ r3 = ['\n'] := by
      unfold endAnchor at hend
      by_cases hc : r3 = [] ∨ r3 = ['\n']
      · exact hc
      · rw [if_neg hc] at hend
        exact absurd hend (by simp)
    refine ⟨a, b, hane, hbne, haall, hball, ?_⟩
    rcases h3 with h3 | h3 <;> subst h3
    · left
      rw [List.append_nil] at hb
      rw [ha, h1, hb]
      rfl
    · right
      rw [ha, h1, hb]
      rfl
  · rintro ⟨a, b, hane, hbne, haall, hball, hcase⟩
    unfold matchHFSlug
    rw [Option.isSome_iff_exists]
    refine ⟨(), ?_⟩
    rcases hcase with rfl | rfl
    · have h1 : plusOf slugChar (a ++ '/' :: b) = some ('/' :: b) :=
        plusOf_append_stop hane haall slugChar_slash b
      have h2 : lit (toL (r"/")) ('/' :: b) = some b := lit_self (toL (r"/")) b
      rw [h1, Option.some_bind, h2, Option.some_bind, plusOf_all hbne hball,
        Option.some_bind]
      rfl
    · have h1 : plusOf slugChar (a ++ '/' :: (b ++ ['\n'])) =
          some ('/' :: (b ++ ['\n'])) :=
        plusOf_append_stop hane haall slugChar_slash _
      have h2 : lit (toL (r"/")) ('/' :: (b ++ ['\n'])) = some (b ++ ['\n']) :=
        lit_self (toL (r"/")) _
      have h3 : plusOf slugChar (b ++ ['\n']) = some ['\n'] :=
        plusOf_append_stop hbne hball slugChar_newline []
      rw [h1, Option.some_bind, h2, Option.some_bind, h3, Option.some_bind]
      rfl

theorem isPrefixSeq_iff {p l : List Char} :
    isPrefixSeq p l = true ↔ ∃ res, l = p ++ res := by
  induction p generalizing l with
  | nil => simp [isPrefixSeq]
  | cons c cs ih =>
    cases l with
    | nil => simp [isPrefixSeq]
    | cons d ds =>
      simp only [isPrefixSeq, Bool.and_eq_true, decide_eq_true_eq, List.cons_append]
      constructor
      · rintro ⟨hcd, hp⟩
        obtain ⟨res, rfl⟩ := ih.mp hp
        exact ⟨res, by rw [hcd]⟩
      · rintro ⟨res, hres⟩
        injection hres with h1 h2
        exact ⟨h1.symm, ih.mpr ⟨res, h2⟩⟩

theorem endsWith_iff {suf l : List Char} :
    endsWith suf l = true ↔ ∃ a, l = a ++ suf := by
  unfold endsWith
  rw [isPrefixSeq_iff]
  constructor
  · rintro ⟨res, hres⟩
    refine ⟨res.reverse, ?_⟩
    have := congrArg List.reverse hres
    simpa using this
  · rintro ⟨a, rfl⟩
    exact ⟨a.reverse, by simp⟩

theorem endsWithSafetensors_iff {l : List Char} :
    endsWithSafetensors l = true ↔ SafetensorsSuffix l := by
  unfold endsWithSafetensors SafetensorsSuffix
  exact endsWith_iff

theorem lit_slash (z : List Char) : lit (toL (r"/")) ('/' :: z) = some z := rfl

theorem lit_slash_trained (z : List Char) :
    lit (toL (r"/trained_model")) ('/' :: (toL (r"trained_model") ++ z)) = some z := rfl

theorem matchReplicate_iff {l : List Char} :
    matchReplicate l = true ↔ IsReplicateShape l := by
  constructor
  · intro h
    unfold matchReplicate at h
    rw [Option.isSome_iff_exists] at h
    obtain ⟨u, h⟩ := h
    simp only [Option.bind_eq_some] at h
    obtain ⟨r9, ⟨r8, ⟨r7, ⟨r6, ⟨r5, ⟨r4, ⟨r3, ⟨r2, ⟨r1, hhttp, hlit1⟩, hany1⟩,
      hlit2⟩, hplus1⟩, hlit3⟩, hplus2⟩, hlit4⟩, hany2⟩, hlit5⟩ := h
    obtain ⟨a, hane, haall, ha⟩ := plusOf_eq_some hplus1
    obtain ⟨b, hbne, hball, hb⟩ := plusOf_eq_some hplus2
    obtain ⟨x, hx⟩ := anyChar_eq_some.mp hany1
    obtain ⟨y, hy⟩ := anyChar_eq_some.mp hany2
    have h1 := lit_eq_some.mp hlit1
    have h2 := lit_eq_some.mp hlit2
    have h3 := lit_eq_some.mp hlit3
    have h4 := lit_eq_some.mp hlit4
    have h5 := lit_eq_some.mp hlit5
    have hsch := httpPfx_eq_some.mp hhttp
    refine ⟨x, a, b, y, u, hane, hbne, haall, hball, ?_⟩
    rw [h1, hx, h2, ha, h3, hb, h4, hy, h5] at hsch
    exact hsch
  · rintro ⟨x, a, b, y, rest, hane, hbne, haall, hball, hsch⟩
    unfold matchReplicate
    rw [Option.isSome_iff_exists]
    refine ⟨rest, ?_⟩
    rw [httpPfx_eq_some.mpr hsch, Option.some_bind, lit_self, Option.some_bind,
      anyChar_cons, Option.some_bind, lit_self, Option.some_bind,
      plusOf_append_stop hane haall slugChar_slash, Option.some_bind,
      lit_slash, Option.some_bind,
      plusOf_append_stop hbne hball slugChar_slash, Option.some_bind,
      lit_slash_trained, Option.some_bind, anyChar_cons, Option.some_bind,
      lit_self]

theorem matchHFUrlHost_iff {l : List Char} :
    matchHFUrlHost l = true ↔ IsHFUrlPrefixShape l := by
  constructor
  · intro h
    unfold matchHFUrlHost at h
    rw [Option.isSome_iff_exists] at h
    obtain ⟨u, h⟩ := h
    simp only [Option.bind_eq_some] at h
    obtain ⟨r3, ⟨r2, ⟨r1, hhttp, hlit1⟩, hany⟩, hlit2⟩ := h
    obtain ⟨x, hx⟩ := anyChar_eq_some.mp hany
    have h1 := lit_eq_some.mp hlit1
    have h2 := lit_eq_some.mp hlit2
    have hsch := httpPfx_eq_some.mp hhttp
    refine ⟨x, u, ?_⟩
    rw [h1, hx, h2] at hsch
    exact hsch
  · rintro ⟨x, rest, hsch⟩
    unfold matchHFUrlHost
    rw [Option.isSome_iff_exists]
    refine ⟨rest, ?_⟩
    rw [httpPfx_eq_some.mpr hsch, Option.some_bind, lit_self, Option.some_bind,
      anyChar_cons, Option.some_bind, lit_self]

theorem isDigit_question : Char.isDigit '?' = false := by decide

theorem matchCivitai_iff {l : List Char} :
    matchCivitai l = true ↔ IsCivitaiShape l := by
  constructor
  · intro h
    unfold matchCivitai at h
    rw [Option.isSome_iff_exists] at h
    obtain ⟨u, h⟩ := h
    simp only [Option.bind_eq_some] at h
    obtain ⟨r5, ⟨r4, ⟨r3, ⟨r2, ⟨r1, hhttp, hlit1⟩, hany⟩, hlit2⟩, hplus⟩, hlit3⟩ := h
    obtain ⟨d, hdne, hdall, hd⟩ := plusOf_eq_some hplus
    obtain ⟨x, hx⟩ := anyChar_eq_some.mp hany
    have h1 := lit_eq_some.mp hlit1
    have h2 := lit_eq_some.mp hlit2
    have h3 := lit_eq_some.mp hlit3
    have hsch := httpPfx_eq_some.mp hhttp
    refine ⟨x, d, u, hdne, hdall, ?_⟩
    rw [h1, hx, h2, hd, h3] at hsch
    exact hsch
  · rintro ⟨x, d, rest, hdne, hdall, hsch⟩
    unfold matchCivitai
    rw [Option.isSome_iff_exists]
    refine ⟨rest, ?_⟩
    have hstop : plusOf Char.isDigit
        (d ++ (toL (r"?type=Model&format=SafeTensor") ++ rest)) =
        some (toL (r"?type=Model&format=SafeTensor") ++ rest) := by
      have : toL (r"?type=Model&format=SafeTensor") ++ rest =
          '?' :: (toL (r"type=Model&format=SafeTensor") ++ rest) := rfl
      rw [this]
      exact plusOf_append_stop hdne hdall isDigit_question _
    rw [httpPfx_eq_some.mpr hsch, Option.some_bind, lit_self, Option.some_bind,
      anyChar_cons, Option.some_bind, lit_self, Option.some_bind, hstop,
      Option.some_bind, lit_self]

/-- Where the weights of one LoRA identifier are loaded from, as decided by
the first-match branch chain of `load_loras`. -/
inductive Resolution
  /-- branch 1: `load_lora_weights(hf_lora, adapter_name=...)` straight from
  the hub slug. -/
  | hubSlug (slug : List Char)
  /-- branch 2: `weights_cache.ensure(hf_lora)` then the fixed sub-path
  `output/flux_train_replicate/lora.safetensors` inside the extracted tar. -/
  | replicateTar (url sub : List Char)
  /-- branch 3: slug extracted from the URL plus
  `weight_name=hf_lora.split('/')[-1]`. -/
  | hubWeight (slug weightName : List Char)
  /-- branch 4: `weights_cache.ensure(hf_lora, file=True)`. -/
  | civitaiFile (url : List Char)
  /-- branch 5: `weights_cache.ensure(hf_lora, file=True)` inside
  `try/except`. -/
  | safetensorsFile (url : List Char)
  deriving DecidableEq

/-- Exceptions `load_loras` can raise. -/
inductive LoraError
  /-- the `else: raise Exception(f"Invalid lora ...: {hf_lora}")` branch;
  carries the offending identifier. -/
  | invalidLora (ident : List Char)
  /-- the `re.search(...)` call returned `None` and `.group(1)` raised
  `AttributeError` (branch 3 with no owner/name path in the URL). -/
  | attributeError (ident : List Char)
  /-- the `weights_cache.ensure` call raised outside the guarded branch 5. -/
  | downloadError (ident : List Char)
  /-- the `names[count]` lookup with `count ≥ 26` raised `IndexError`. -/
  | indexError
  deriving DecidableEq

/-- The per-identifier decision table of `load_loras`: which branch fires and
where the weights come from.  Download success is factored out (see
`loraStep`). -/
def resolveLora (l : List Char) : Except LoraError Resolution :=
  if matchHFSlug l then .ok (.hubSlug l)
  else if matchReplicate l then
    .ok (.replicateTar l (toL (r"output/flux_train_replicate/lora.safetensors")))
  else if matchHFUrlHost l then
    match hfUrlSlug l with
    | some slug => .ok (.hubWeight slug (lastComponent l))
    | none => .error (.attributeError l)
  else if matchCivitai l then .ok (.civitaiFile l)
  else if endsWithSafetensors l then .ok (.safetensorsFile l)
  else .error (.invalidLora l)

/-- One iteration of the `for hf_lora in hf_loras` loop body, up to the slot
assignment: `dlOk` is the success oracle for `weights_cache.ensure`
(defined in `weights.py`, outside this file; only its success or failure is
observable here).  `.ok none` models the `except ... continue` of branch 5
(a swallowed download failure); branches 2 and 4 call `ensure` outside any
`try`, so their failures propagate. -/
def loraStep (dlOk : List Char → Bool) (l : List Char) :
    Except LoraError (Option Resolution) :=
  match resolveLora l with
  | .error e => .error e
  | .ok res =>
    match res with
    | .replicateTar _ _ =>
      if dlOk l then .ok (some res) else .error (.downloadError l)
    | .civitaiFile _ =>
      if dlOk l then .ok (some res) else .error (.downloadError l)
    | .safetensorsFile _ =>
      if dlOk l then .ok (some res) else .ok none
    | _ => .ok (some res)

/-- Pool `names = ['a','b',...,'z']` of adapter slot names. -/
def names : List Char := toL (r"abcdefghijklmnopqrstuvwxyz")

/-- The loop of `load_loras`, threading the slot counter `count`: returns the
final counter together with the `(adapter_name, resolution)` pairs passed to
`load_lora_weights`, in order. -/
def loadLorasGo (dlOk : List Char → Bool) :
    List (List Char) → Nat → Except LoraError (Nat × List (Char × Resolution))
  | [], count => .ok (count, [])
  | l :: ls, count =>
    match loraStep dlOk l with
    | .error e => .error e
    | .ok none => loadLorasGo dlOk ls count
    | .ok (some res) =>
      match names[count]? with
      | none => .error .indexError
      | some nm =>
        match loadLorasGo dlOk ls (count + 1) with
        | .error e => .error e
        | .ok (c, evs) => .ok (c, (nm, res) :: evs)

/-- Observable outcome of a completed `load_loras` call. -/
structure LoadResult where
  /-- the `load_lora_weights(..., adapter_name=...)` calls, in order. -/
  events : List (Char × Resolution)
  /-- first argument of the final `set_adapters` call (`names[:count]`). -/
  adapterNames : List Char
  /-- the `adapter_weights` of the final `set_adapters` call (`lora_scales[:count]`). -/
  adapterWeights : List ℚ
  /-- the new `self.last_loaded_loras`. -/
  lastLoaded : List (List Char)
  deriving DecidableEq

/-- Model of `Predictor.load_loras(hf_loras, lora_scales)`. -/
def load_loras (dlOk : List Char → Bool) (hf_loras : List (List Char))
    (lora_scales : List ℚ) : Except LoraError LoadResult :=
  match loadLorasGo dlOk hf_loras 0 with
  | .error e => .error e
  | .ok (count, evs) =>
    .ok ⟨evs, names.take count, lora_scales.take count, hf_loras⟩

/-- Does `loraStep` load this identifier (succeed with a resolution)? -/
def stepOk (dlOk : List Char → Bool) (l : List Char) : Bool :=
  match loraStep dlOk l with
  | .ok (some _) => true
  | _ => false

/-- Does `loraStep` avoid raising on this identifier? -/
def stepNoError (dlOk : List Char → Bool) (l : List Char) : Bool :=
  match loraStep dlOk l with
  | .ok _ => true
  | .error _ => false

/-- The resolution `loraStep` loads, if any. -/
def stepRes (dlOk : List Char → Bool) (l : List Char) : Option Resolution :=
  match loraStep dlOk l with
  | .ok o => o
  | .error _ => none

/-- The resolutions of the successfully loaded identifiers, in request
order (the swallowed failures of branch 5 are dropped). -/
def loadedResolutions (dlOk : List Char → Bool) (loras : List (List Char)) :
    List Resolution :=
  loras.filterMap (stepRes dlOk)

theorem names_length : names.length = 26 := by decide

/-- Shape of a successful loop run: the final counter counts the loaded
LoRAs, and the slot names are consecutive letters starting at the initial
counter. -/
theorem loadLorasGo_shape (dlOk : List Char → Bool) (loras : List (List Char)) :
    ∀ count c evs, loadLorasGo dlOk loras count = .ok (c, evs) →
      c = count + evs.length ∧
      evs.map Prod.fst = (names.drop count).take evs.length := by
  induction loras with
  | nil =>
    intro count c evs h
    unfold loadLorasGo at h
    injection h with h
    injection h with h1 h2
    subst h1
    subst h2
    simp
  | cons l ls ih =>
    intro count c evs h
    unfold loadLorasGo at h
    rcases hstep : loraStep dlOk l with e | o <;> rw [hstep] at h <;> try dsimp only at h
    · exact absurd h (by simp)
    · rcases o with _ | res
      · exact ih count c evs h
      · rcases hnm : names[count]? with _ | nm <;> rw [hnm] at h <;> dsimp only at h
        · exact absurd h (by simp)
        · rcases hrec : loadLorasGo dlOk ls (count + 1) with e | ⟨c', evs'⟩ <;>
            rw [hrec] at h <;> try dsimp only at h
          · exact absurd h (by simp)
          · injection h with h
            injection h with h1 h2
            subst h1
            subst h2
            obtain ⟨ih1, ih2⟩ := ih (count + 1) c' evs' hrec
            have hlt : count < names.length := by
              by_contra hge
              rw [List.getElem?_eq_none (by omega)] at hnm
              exact absurd hnm (by simp)
            have hdrop : names.drop count = names[count] :: names.drop (count + 1) :=
              List.drop_eq_getElem_cons hlt
            have hnm' : nm = names[count] := by
              rw [List.getElem?_eq_getElem hlt] at hnm
              injection hnm with hnm
              exact hnm.symm
            constructor
            · simp only [List.length_cons]
              omega
            · simp only [List.map_cons, ih2, hdrop, hnm', List.length_cons,
                List.take_succ_cons]

/-- C3: on a successful call, the k-th loaded LoRA occupies the k-th letter
slot, `set_adapters` receives exactly the names used (the first `count`
letters), and `adapter_weights` is the first `count` elements of
`lora_scales`. -/
theorem load_loras_adapter_slots (dlOk : List Char → Bool)
    (hf_loras : List (List Char)) (lora_scales : List ℚ) (res : LoadResult)
    (h : load_loras dlOk hf_loras lora_scales = .ok res) :
    res.events.map Prod.fst = names.take res.events.length ∧
    res.adapterNames = res.events.map Prod.fst ∧
    res.adapterWeights = lora_scales.take res.events.length := by
  unfold load_loras at h
  rcases hgo : loadLorasGo dlOk hf_loras 0 with e | ⟨count, evs⟩ <;>
    rw [hgo] at h <;> dsimp only at h
  · exact absurd h (by simp)
  · injection h with h
    subst h
    obtain ⟨h1, h2⟩ := loadLorasGo_shape dlOk hf_loras 0 count evs hgo
    rw [Nat.zero_add] at h1
    subst h1
    rw [List.drop_zero] at h2
    exact ⟨h2, h2.symm, rfl⟩

/-- C3 witness: two valid identifiers land in slots `a`, `b` with the first
two scales. -/
theorem load_loras_adapter_slots_witness :
    load_loras (fun _ => true) [toL (r"o/n"), toL (r"p/q")]
        [(1/2 : ℚ), (1/4 : ℚ), (1/8 : ℚ)] =
      .ok ⟨[('a', .hubSlug (toL (r"o/n"))), ('b', .hubSlug (toL (r"p/q")))],
        ['a', 'b'], [(1/2 : ℚ), (1/4 : ℚ)], [toL (r"o/n"), toL (r"p/q")]⟩ ∧
    (['a', 'b'] : List Char) = names.take 2 ∧
    [(1/2 : ℚ), (1/4 : ℚ)] = [(1/2 : ℚ), (1/4 : ℚ), (1/8 : ℚ)].take 2 := by
  have h : load_loras (fun _ => true) [toL (r"o/n"), toL (r"p/q")]
      [(1/2 : ℚ), (1/4 : ℚ), (1/8 : ℚ)] =
      .ok ⟨[('a', .hubSlug (toL (r"o/n"))), ('b', .hubSlug (toL (r"p/q")))],
        ['a', 'b'], [(1/2 : ℚ), (1/4 : ℚ)], [toL (r"o/n"), toL (r"p/q")]⟩ := by
    rfl
  have h2 := load_loras_adapter_slots (fun _ => true) [toL (r"o/n"), toL (r"p/q")]
    [(1/2 : ℚ), (1/4 : ℚ), (1/8 : ℚ)] _ h
  exact ⟨h, h2.2.1.symm.trans h2.1, h2.2.2⟩

/-- Full evaluation of the loop when no identifier raises: the result pairs
consecutive letter slots (starting at `count`) with the resolutions of the
successfully loaded identifiers, skipped identifiers contributing nothing. -/
theorem loadLorasGo_eval (dlOk : List Char → Bool) (loras : List (List Char)) :
    ∀ count, (∀ l ∈ loras, stepNoError dlOk l = true) →
      count + (loadedResolutions dlOk loras).length ≤ 26 →
      loadLorasGo dlOk loras count =
        .ok (count + (loadedResolutions dlOk loras).length,
          ((names.drop count).take (loadedResolutions dlOk loras).length).zip
            (loadedResolutions dlOk loras)) := by
  induction loras with
  | nil =>
    intro count _ _
    simp [loadLorasGo, loadedResolutions]
  | cons l ls ih =>
    intro count hno hlen
    have hnol : stepNoError dlOk l = true := hno l (by simp)
    have hnols : ∀ u ∈ ls, stepNoError dlOk u = true := fun u hu => hno u (by simp [hu])
    rcases hstep : loraStep dlOk l with e | o
    · unfold stepNoError at hnol
      rw [hstep] at hnol
      exact absurd hnol (by simp)
    · have hres : stepRes dlOk l = o := by unfold stepRes; rw [hstep]
      rcases o with _ | res
      · have hLR : loadedResolutions dlOk (l :: ls) = loadedResolutions dlOk ls := by
          unfold loadedResolutions
          rw [List.filterMap_cons_none hres]
        unfold loadLorasGo
        rw [hstep]
        dsimp only
        rw [hLR]
        rw [hLR] at hlen
        exact ih count hnols hlen
      · have hLR : loadedResolutions dlOk (l :: ls) =
            res :: loadedResolutions dlOk ls := by
          unfold loadedResolutions
          rw [List.filterMap_cons_some hres]
        rw [hLR] at hlen ⊢
        simp only [List.length_cons] at hlen ⊢
        have hlt : count < names.length := by rw [names_length]; omega
        unfold loadLorasGo
        rw [hstep]
        dsimp only
        rw [List.getElem?_eq_getElem hlt]
        dsimp only
        rw [ih (count + 1) hnols (by omega)]
        dsimp only
        have hdrop : names.drop count = names[count] :: names.drop (count + 1) :=
          List.drop_eq_getElem_cons hlt
        rw [hdrop]
        simp only [List.take_succ_cons, List.zip_cons_cons]
        have harith : count + 1 + (loadedResolutions dlOk ls).length =
            count + ((loadedResolutions dlOk ls).length + 1) := by omega
        rw [harith]

/-- C5: an identifier matching none of the five recognised shapes makes
`load_loras` raise the generic `Invalid lora` exception carrying the
identifier, rather than skipping it or returning normally. -/
theorem load_loras_invalid_raises (l : List Char)
    (h1 : ¬ IsHFSlugShape l) (h2 : ¬ IsReplicateShape l)
    (h3 : ¬ IsHFUrlPrefixShape l) (h4 : ¬ IsCivitaiShape l)
    (h5 : ¬ SafetensorsSuffix l) :
    resolveLora l = .error (.invalidLora l) ∧
    ∀ (dlOk : List Char → Bool) (lora_scales : List ℚ),
      load_loras dlOk [l] lora_scales = .error (.invalidLora l) := by
  have hm1 : matchHFSlug l = false :=
    Bool.eq_false_iff.mpr fun h => h1 (matchHFSlug_iff.mp h)
  have hm2 : matchReplicate l = false :=
    Bool.eq_false_iff.mpr fun h => h2 (matchReplicate_iff.mp h)
  have hm3 : matchHFUrlHost l = false :=
    Bool.eq_false_iff.mpr fun h => h3 (matchHFUrlHost_iff.mp h)
  have hm4 : matchCivitai l = false :=
    Bool.eq_false_iff.mpr fun h => h4 (matchCivitai_iff.mp h)
  have hm5 : endsWithSafetensors l = false :=
    Bool.eq_false_iff.mpr fun h => h5 (endsWithSafetensors_iff.mp h)
  have hres : resolveLora l = .error (.invalidLora l) := by
    unfold resolveLora
    rw [if_neg (by simp [hm1]), if_neg (by simp [hm2]), if_neg (by simp [hm3]),
      if_neg (by simp [hm4]), if_neg (by simp [hm5])]
  refine ⟨hres, fun dlOk lora_scales => ?_⟩
  unfold load_loras loadLorasGo loraStep
  rw [hres]

/-- C5 witness: `"foo bar"` matches no recognised shape and raises. -/
theorem load_loras_invalid_raises_witness :
    resolveLora (toL (r"foo bar")) = .error (.invalidLora (toL (r"foo bar"))) ∧
    load_loras (fun _ => true) [toL (r"foo bar")] [] =
      .error (.invalidLora (toL (r"foo bar"))) := by
  have h := load_loras_invalid_raises (toL (r"foo bar"))
    (fun hs => absurd (matchHFSlug_iff.mpr hs) (by decide))
    (fun hs => absurd (matchReplicate_iff.mpr hs) (by decide))
    (fun hs => absurd (matchHFUrlHost_iff.mpr hs) (by decide))
    (fun hs => absurd (matchCivitai_iff.mpr hs) (by decide))
    (fun hs => absurd (endsWithSafetensors_iff.mpr hs) (by decide))
  exact ⟨h.1, h.2 _ _⟩

/-- C9: a download failure on a plain-`.safetensors` identifier is swallowed
(`loraStep` returns `.ok none`, no exception), and a call in which every
identifier either loads or is so skipped returns normally, with the loaded
LoRAs compacted into the first consecutive letter slots and `set_adapters`
pairing those slots with the first `count` scales — i.e. with the scale at
each survivor's load-order position, not its request position. -/
theorem load_loras_swallowed_download_failure (dlOk : List Char → Bool)
    (hf_loras : List (List Char)) (lora_scales : List ℚ)
    (hno : hf_loras.all (stepNoError dlOk) = true)
    (hlen : (loadedResolutions dlOk hf_loras).length ≤ 26) :
    (∀ l, matchHFSlug l = false → matchReplicate l = false →
      matchHFUrlHost l = false → matchCivitai l = false →
      endsWithSafetensors l = true → dlOk l = false →
      loraStep dlOk l = .ok none) ∧
    load_loras dlOk hf_loras lora_scales =
      .ok ⟨(names.take (loadedResolutions dlOk hf_loras).length).zip
            (loadedResolutions dlOk hf_loras),
        names.take (loadedResolutions dlOk hf_loras).length,
        lora_scales.take (loadedResolutions dlOk hf_loras).length,
        hf_loras⟩ := by
  constructor
  · intro l h1 h2 h3 h4 h5 hdl
    unfold loraStep resolveLora
    rw [if_neg (by simp [h1]), if_neg (by simp [h2]), if_neg (by simp [h3]),
      if_neg (by simp [h4]), if_pos (by simp [h5])]
    dsimp only
    rw [if_neg (by simp [hdl])]
  · have hno' : ∀ l ∈ hf_loras, stepNoError dlOk l = true :=
      fun l hl => List.all_eq_true.mp hno l hl
    unfold load_loras
    rw [loadLorasGo_eval dlOk hf_loras 0 hno' (by simpa using hlen)]
    dsimp only
    rw [List.drop_zero, Nat.zero_add]

/-- C9 witness: the failing first identifier is skipped, the second LoRA is
compacted into slot `a` and paired with the FIRST scale `9/10` (not its own
request-position scale `3/10`), and the call still returns `.ok`. -/
theorem load_loras_swallowed_witness :
    ([toL (r"https://x.com/bad.safetensors"), toL (r"o/n")].all
      (stepNoError (fun u => decide (u ≠ toL (r"https://x.com/bad.safetensors"))))
        = true) ∧
    load_loras (fun u => decide (u ≠ toL (r"https://x.com/bad.safetensors")))
        [toL (r"https://x.com/bad.safetensors"), toL (r"o/n")]
        [(9/10 : ℚ), (3/10 : ℚ)] =
      .ok ⟨[('a', .hubSlug (toL (r"o/n")))], ['a'], [(9/10 : ℚ)],
        [toL (r"https://x.com/bad.safetensors"), toL (r"o/n")]⟩ := by
  have h := load_loras_swallowed_download_failure
    (fun u => decide (u ≠ toL (r"https://x.com/bad.safetensors")))
    [toL (r"https://x.com/bad.safetensors"), toL (r"o/n")]
    [(9/10 : ℚ), (3/10 : ℚ)] (by decide) (by decide)
  refine ⟨by decide, ?_⟩
  rw [h.2]
  rfl

/-! ### The LoRA-handling phase of `Predictor.predict` (lines 403-422) -/

/-- The pipeline's loaded-adapter state. -/
structure AdapterState where
  /-- adapters registered by `load_lora_weights`, with their sources. -/
  loaded : List (Char × Resolution)
  /-- first argument of the last `set_adapters` call. -/
  activeNames : List Char
  /-- the `adapter_weights` of the last `set_adapters` call. -/
  activeWeights : List ℚ
  deriving DecidableEq

/-- The predictor state `predict` reads and writes in this phase. -/
structure PipeState where
  adapters : AdapterState
  /-- the field `self.last_loaded_loras`. -/
  lastLoaded : List (List Char)
  deriving DecidableEq

/-- Observable pipeline calls made by the phase. -/
inductive LoraEvent
  | unloadLoraWeights
  | loadLoraWeights (name : Char) (res : Resolution)
  | setAdapters (adapterNames : List Char) (adapterWeights : List ℚ)
  deriving DecidableEq

/-- State after `pipe.unload_lora_weights()`. -/
def emptyAdapters : AdapterState := ⟨[], [], []⟩

/-- State after a completed `load_loras` call (which follows an unload; the
unloaded state is fully overwritten, hence unused). -/
def applyLoadLoras (_st : PipeState) (res : LoadResult) : PipeState :=
  ⟨⟨res.events, res.adapterNames, res.adapterWeights⟩, res.lastLoaded⟩

/-- The trace of a completed `load_loras` call. -/
def loadLorasEvents (res : LoadResult) : List LoraEvent :=
  res.events.map (fun p => LoraEvent.loadLoraWeights p.1 p.2) ++
    [LoraEvent.setAdapters res.adapterNames res.adapterWeights]

/-- An unload followed by `load_loras hf_loras scales`. -/
def runLoadLoras (dlOk : List Char → Bool) (hf_loras : List (List Char))
    (scales : List ℚ) (st1 : PipeState) :
    Except LoraError (PipeState × List LoraEvent) :=
  match load_loras dlOk hf_loras scales with
  | .error e => .error e
  | .ok res =>
    .ok (applyLoadLoras st1 res, LoraEvent.unloadLoraWeights :: loadLorasEvents res)

/-- Lines 403-422 of `predict`: Python's falsy test `if hf_loras:` conflates
`None` and `[]`, so both are modelled by the empty list, and likewise an
absent `lora_scales` is the empty list (`if ... not lora_scales` treats
`None` and `[]` identically, and the length tests are only reached when the
list is non-empty). -/
def predictLoraPhase (dlOk : List Char → Bool) (hf_loras : List (List Char))
    (lora_scales : List ℚ) (st : PipeState) :
    Except LoraError (PipeState × List LoraEvent) :=
  if hf_loras ≠ [] then
    if hf_loras ≠ st.lastLoaded then
      let st1 : PipeState := ⟨emptyAdapters, st.lastLoaded⟩
      if lora_scales = [] then
        runLoadLoras dlOk hf_loras (List.replicate hf_loras.length (0.8 : ℚ)) st1
      else if lora_scales.length = 1 then
        runLoadLoras dlOk hf_loras
          (List.replicate hf_loras.length (lora_scales.headD 0)) st1
      else if hf_loras.length ≤ lora_scales.length then
        runLoadLoras dlOk hf_loras lora_scales st1
      else
        .ok (st1, [LoraEvent.unloadLoraWeights])
    else
      .ok (st, [])
  else
    .ok (⟨emptyAdapters, st.lastLoaded⟩, [LoraEvent.unloadLoraWeights])

/-- C2: when the request's non-empty `hf_loras` equals
`self.last_loaded_loras`, the phase is a complete no-op — no unload, no
load, no `set_adapters` — whatever `lora_scales` holds. -/
theorem predict_same_loras_noop (dlOk : List Char → Bool)
    (hf_loras : List (List Char)) (lora_scales : List ℚ) (st : PipeState)
    (hne : hf_loras ≠ []) (hsame : hf_loras = st.lastLoaded) :
    predictLoraPhase dlOk hf_loras lora_scales st = .ok (st, []) := by
  unfold predictLoraPhase
  rw [if_pos hne, if_neg (by simp [hsame])]

/-- C2 witness: same LoRA list, different scales — state untouched, no
events. -/
theorem predict_same_loras_noop_witness :
    predictLoraPhase (fun _ => true) [toL (r"o/n")] [(9/10 : ℚ)]
        ⟨⟨[('a', .hubSlug (toL (r"o/n")))], ['a'], [(1/2 : ℚ)]⟩, [toL (r"o/n")]⟩ =
      .ok (⟨⟨[('a', .hubSlug (toL (r"o/n")))], ['a'], [(1/2 : ℚ)]⟩,
        [toL (r"o/n")]⟩, []) :=
  predict_same_loras_noop (fun _ => true) [toL (r"o/n")] [(9/10 : ℚ)]
    ⟨⟨[('a', .hubSlug (toL (r"o/n")))], ['a'], [(1/2 : ℚ)]⟩, [toL (r"o/n")]⟩
    (by decide) (by decide)

theorem stepOk_noError {dlOk : List Char → Bool} {l : List Char}
    (h : stepOk dlOk l = true) : stepNoError dlOk l = true := by
  unfold stepOk at h
  unfold stepNoError
  rcases hstep : loraStep dlOk l with e | o
  · rw [hstep] at h
    exact absurd h (by simp)
  · rfl

theorem stepOk_res_isSome {dlOk : List Char → Bool} {l : List Char}
    (h : stepOk dlOk l = true) : ∃ r, stepRes dlOk l = some r := by
  unfold stepOk at h
  unfold stepRes
  rcases hstep : loraStep dlOk l with e | o
  · rw [hstep] at h
    exact absurd h (by simp)
  · rw [hstep] at h
    rcases o with _ | r
    · exact absurd h (by simp)
    · exact ⟨r, rfl⟩

theorem loadedResolutions_length_all_ok (dlOk : List Char → Bool)
    (loras : List (List Char)) (hok : ∀ l ∈ loras, stepOk dlOk l = true) :
    (loadedResolutions dlOk loras).length = loras.length := by
  induction loras with
  | nil => rfl
  | cons l ls ih =>
    obtain ⟨r, hr⟩ := stepOk_res_isSome (hok l (by simp))
    unfold loadedResolutions
    rw [List.filterMap_cons_some hr]
    simp only [List.length_cons]
    have ih' := ih (fun u hu => hok u (by simp [hu]))
    unfold loadedResolutions at ih'
    omega

/-- A `load_loras` call in which every identifier loads. -/
theorem load_loras_all_ok (dlOk : List Char → Bool) (loras : List (List Char))
    (s : List ℚ) (hok : ∀ l ∈ loras, stepOk dlOk l = true)
    (hlen : loras.length ≤ 26) :
    load_loras dlOk loras s =
      .ok ⟨(names.take loras.length).zip (loadedResolutions dlOk loras),
        names.take loras.length, s.take loras.length, loras⟩ := by
  have hL := loadedResolutions_length_all_ok dlOk loras hok
  have hno : ∀ l ∈ loras, stepNoError dlOk l = true :=
    fun l hl => stepOk_noError (hok l hl)
  unfold load_loras
  rw [loadLorasGo_eval dlOk loras 0 hno (by omega)]
  dsimp only
  rw [List.drop_zero, Nat.zero_add, hL]

theorem runLoadLoras_all_ok (dlOk : List Char → Bool) (loras : List (List Char))
    (s : List ℚ) (st1 : PipeState) (hok : ∀ l ∈ loras, stepOk dlOk l = true)
    (hlen : loras.length ≤ 26) :
    runLoadLoras dlOk loras s st1 =
      .ok (⟨⟨(names.take loras.length).zip (loadedResolutions dlOk loras),
          names.take loras.length, s.take loras.length⟩, loras⟩,
        LoraEvent.unloadLoraWeights ::
          ((((names.take loras.length).zip (loadedResolutions dlOk loras)).map
            (fun p => LoraEvent.loadLoraWeights p.1 p.2)) ++
            [LoraEvent.setAdapters (names.take loras.length)
              (s.take loras.length)])) := by
  unfold runLoadLoras
  rw [load_loras_all_ok dlOk loras s hok hlen]
  rfl

/-- The scales actually applied, as `predict` computes them: 0.8 per LoRA
when none are supplied, the single scale broadcast when one is supplied,
element-wise otherwise. -/
def effectiveScales (lora_scales : List ℚ) (n : Nat) : List ℚ :=
  if lora_scales = [] then List.replicate n (0.8 : ℚ)
  else if lora_scales.length = 1 then List.replicate n (lora_scales.headD 0)
  else lora_scales.take n

theorem names_take_length {n : Nat} (h : n ≤ 26) : (names.take n).length = n := by
  rw [List.length_take, names_length]
  omega

/-- C4: on a changed non-empty LoRA list where every identifier loads, every
LoRA is applied: one adapter per requested LoRA, slot names `a..`, and
`set_adapters` weights exactly `effectiveScales` (0.8 default / broadcast /
element-wise). -/
theorem predict_lora_scales_applied (dlOk : List Char → Bool)
    (hf_loras : List (List Char)) (lora_scales : List ℚ) (st : PipeState)
    (hne : hf_loras ≠ []) (hdiff : hf_loras ≠ st.lastLoaded)
    (hok : hf_loras.all (stepOk dlOk) = true) (hlen : hf_loras.length ≤ 26)
    (hcase : lora_scales = [] ∨ lora_scales.length = 1 ∨
      hf_loras.length ≤ lora_scales.length) :
    ∃ st', predictLoraPhase dlOk hf_loras lora_scales st =
        .ok (st', LoraEvent.unloadLoraWeights ::
          (st'.adapters.loaded.map (fun p => LoraEvent.loadLoraWeights p.1 p.2) ++
            [LoraEvent.setAdapters st'.adapters.activeNames
              st'.adapters.activeWeights])) ∧
      st'.adapters.loaded.length = hf_loras.length ∧
      st'.adapters.activeNames = names.take hf_loras.length ∧
      st'.adapters.activeWeights = effectiveScales lora_scales hf_loras.length ∧
      st'.adapters.loaded.map Prod.snd = loadedResolutions dlOk hf_loras ∧
      st'.lastLoaded = hf_loras := by
  have hok' : ∀ l ∈ hf_loras, stepOk dlOk l = true :=
    fun l hl => List.all_eq_true.mp hok l hl
  have hL := loadedResolutions_length_all_ok dlOk hf_loras hok'
  have hzlen : ((names.take hf_loras.length).zip
      (loadedResolutions dlOk hf_loras)).length = hf_loras.length := by
    rw [List.length_zip, names_take_length hlen, hL]
    omega
  have hzsnd : ((names.take hf_loras.length).zip
      (loadedResolutions dlOk hf_loras)).map Prod.snd =
      loadedResolutions dlOk hf_loras := by
    apply List.map_snd_zip
    rw [names_take_length hlen, hL]
  unfold predictLoraPhase
  rw [if_pos hne, if_pos hdiff]
  by_cases hc1 : lora_scales = []
  · rw [if_pos hc1,
      runLoadLoras_all_ok dlOk hf_loras _ ⟨emptyAdapters, st.lastLoaded⟩ hok' hlen]
    refine ⟨_, rfl, hzlen, rfl, ?_, hzsnd, rfl⟩
    show (List.replicate hf_loras.length (0.8 : ℚ)).take hf_loras.length =
      effectiveScales lora_scales hf_loras.length
    rw [effectiveScales, if_pos hc1, List.take_replicate]
    simp
  · rw [if_neg hc1]
    by_cases hc2 : lora_scales.length = 1
    · rw [if_pos hc2,
        runLoadLoras_all_ok dlOk hf_loras _ ⟨emptyAdapters, st.lastLoaded⟩ hok' hlen]
      refine ⟨_, rfl, hzlen, rfl, ?_, hzsnd, rfl⟩
      show (List.replicate hf_loras.length (lora_scales.headD 0)).take
          hf_loras.length = effectiveScales lora_scales hf_loras.length
      rw [effectiveScales, if_neg hc1, if_pos hc2, List.take_replicate]
      simp
    · have hc3 : hf_loras.length ≤ lora_scales.length := by
        rcases hcase with h | h | h
        · exact absurd h hc1
        · exact absurd h hc2
        · exact h
      rw [if_neg hc2, if_pos hc3,
        runLoadLoras_all_ok dlOk hf_loras _ ⟨emptyAdapters, st.lastLoaded⟩ hok' hlen]
      refine ⟨_, rfl, hzlen, rfl, ?_, hzsnd, rfl⟩
      show lora_scales.take hf_loras.length =
        effectiveScales lora_scales hf_loras.length
      rw [effectiveScales, if_neg hc1, if_neg hc2]

/-- C4 witness: one LoRA, no scales supplied — applied with the default 0.8. -/
theorem predict_lora_scales_applied_witness :
    ∃ st', predictLoraPhase (fun _ => true) [toL (r"o/n")] [] ⟨emptyAdapters, []⟩ =
        .ok (st', LoraEvent.unloadLoraWeights ::
          (st'.adapters.loaded.map (fun p => LoraEvent.loadLoraWeights p.1 p.2) ++
            [LoraEvent.setAdapters st'.adapters.activeNames
              st'.adapters.activeWeights])) ∧
      st'.adapters.loaded.length = 1 ∧
      st'.adapters.activeNames = names.take 1 ∧
      st'.adapters.activeWeights = effectiveScales [] 1 ∧
      st'.adapters.loaded.map Prod.snd =
        loadedResolutions (fun _ => true) [toL (r"o/n")] ∧
      st'.lastLoaded = [toL (r"o/n")] :=
  predict_lora_scales_applied (fun _ => true) [toL (r"o/n")] [] ⟨emptyAdapters, []⟩
    (by decide) (by decide) (by decide) (by decide) (Or.inl rfl)

/-! ### Inference retry (predict.py lines 438-460) -/

/-- Which attention implementation the UNet currently uses: the processors
configured at setup, or `AttnProcessor2_0` after the patch. -/
inductive AttnMode
  | asConfigured
  | attnProcessor2_0
  deriving DecidableEq

/-- What a `pipe(...)` call can raise: a `RuntimeError` with its message, or
any other exception. -/
inductive InferError
  | runtimeError (msg : List Char)
  | otherError
  deriving DecidableEq

/-- Python `pat in s` substring test. -/
def containsSeq (pat : List Char) : List Char → Bool
  | [] => isPrefixSeq pat []
  | c :: ds => isPrefixSeq pat (c :: ds) || containsSeq pat ds

/-- The message fragment the handler looks for. -/
def matMulMsg : List Char := toL (r"mat1 and mat2 shapes cannot be multiplied")

/-- Lines 438-460 of `predict`: run inference; on a `RuntimeError` whose
message contains the shape-mismatch fragment, set the UNet's attention
processor to `AttnProcessor2_0` and retry exactly once, the retry's outcome
(success or failure) being final; any other error propagates unretried.
The inference call itself is a parameter (it is a third-party library
call); `runInference` is the error-handling logic wrapped around it. -/
def runInference {O : Type} (infer : AttnMode → Except InferError O) :
    Except InferError O :=
  match infer .asConfigured with
  | .ok out => .ok out
  | .error e =>
    match e with
    | .runtimeError msg =>
      if containsSeq matMulMsg msg then infer .attnProcessor2_0
      else .error (.runtimeError msg)
    | .otherError => .error .otherError

/-- C6: the retry policy — success passes through; a shape-mismatch
`RuntimeError` triggers exactly one retry under `AttnProcessor2_0` whose
outcome is returned verbatim (so a failing retry propagates and there is
never a second retry); every other error is re-raised without retry. -/
theorem runInference_retry_policy {O : Type}
    (infer : AttnMode → Except InferError O) :
    (∀ out, infer .asConfigured = .ok out → runInference infer = .ok out) ∧
    (∀ msg, infer .asConfigured = .error (.runtimeError msg) →
      containsSeq matMulMsg msg = true →
      runInference infer = infer .attnProcessor2_0) ∧
    (∀ msg, infer .asConfigured = .error (.runtimeError msg) →
      containsSeq matMulMsg msg = false →
      runInference infer = .error (.runtimeError msg)) ∧
    (infer .asConfigured = .error .otherError →
      runInference infer = .error .otherError) := by
  refine ⟨?_, ?_, ?_, ?_⟩
  · intro out h
    unfold runInference
    rw [h]
  · intro msg h hmsg
    unfold runInference
    rw [h]
    dsimp only
    rw [if_pos hmsg]
  · intro msg h hmsg
    unfold runInference
    rw [h]
    dsimp only
    rw [hmsg]
    rfl
  · intro h
    unfold runInference
    rw [h]

/-- C6 witness: a shape-mismatch failure is retried once; the failing retry
(an unrelated error) propagates — no second retry. -/
theorem runInference_retry_policy_witness :
    runInference (fun m => match m with
      | AttnMode.asConfigured =>
        Except.error (InferError.runtimeError matMulMsg)
      | AttnMode.attnProcessor2_0 =>
        (Except.error InferError.otherError : Except InferError Nat)) =
      Except.error InferError.otherError :=
  ((runInference_retry_policy (fun m => match m with
      | AttnMode.asConfigured =>
        Except.error (InferError.runtimeError matMulMsg)
      | AttnMode.attnProcessor2_0 =>
        (Except.error InferError.otherError : Except InferError Nat))).2.1
    matMulMsg rfl (by decide)).trans rfl

/-! ### Safety filtering and output collection (predict.py lines 462-480) -/

/-- Path `f"/tmp/out-{i}.{output_format}"`. -/
def outputPathName (i : Nat) (fmt : List Char) : List Char :=
  toL (r"/tmp/out-") ++ Nat.toDigits 10 i ++ '.' :: fmt

/-- The `for i, image in enumerate(output.images)` loop: one image per entry
of `nsfw` (`has_nsfw_content[i]`, consulted only when the checker ran, i.e.
when `disable = false` — the `and` short-circuits otherwise), collecting the
saved output paths. -/
def collectGo (disable : Bool) (fmt : List Char) :
    Nat → List Bool → List (List Char)
  | _, [] => []
  | i, b :: bs =>
    if !disable && b then collectGo disable fmt (i + 1) bs
    else outputPathName i fmt :: collectGo disable fmt (i + 1) bs

/-- The collected `output_paths` list. -/
def collectOutputs (disable : Bool) (nsfw : List Bool) (fmt : List Char) :
    List (List Char) :=
  collectGo disable fmt 0 nsfw

/-- The final `raise Exception("NSFW content detected...")`. -/
inductive PredictError
  | nsfwAllFiltered
  deriving DecidableEq

/-- Lines 462-480: collect the outputs that survive the safety check and
raise when none do. -/
def finalizeOutputs (disable : Bool) (nsfw : List Bool) (fmt : List Char) :
    Except PredictError (List (List Char)) :=
  let ps := collectOutputs disable nsfw fmt
  if ps.length = 0 then .error .nsfwAllFiltered else .ok ps

theorem collectGo_length_enabled (fmt : List Char) :
    ∀ i bs, (collectGo false fmt i bs).length =
      (bs.filter (fun b => !b)).length := by
  intro i bs
  induction bs generalizing i with
  | nil => rfl
  | cons b bs ih =>
    rcases b with _ | _ <;> simp [collectGo, List.filter_cons, ih]

theorem collectGo_length_disabled (fmt : List Char) :
    ∀ i bs, (collectGo true fmt i bs).length = bs.length := by
  intro i bs
  induction bs generalizing i with
  | nil => rfl
  | cons b bs ih =>
    simp [collectGo, ih]

/-- C7: with the safety checker enabled and every image flagged, `predict`
raises and returns nothing; with the checker enabled and not every image
flagged it returns exactly one path per unflagged image; with the checker
disabled it returns one path per image. -/
theorem predict_safety_filter (nsfw : List Bool) (fmt : List Char) :
    ((0 < nsfw.length ∧ ∀ b ∈ nsfw, b = true) →
      finalizeOutputs false nsfw fmt = .error .nsfwAllFiltered) ∧
    ((¬ ∀ b ∈ nsfw, b = true) →
      ∃ ps, finalizeOutputs false nsfw fmt = .ok ps ∧
        ps.length = (nsfw.filter (fun b => !b)).length) ∧
    (0 < nsfw.length →
      ∃ ps, finalizeOutputs true nsfw fmt = .ok ps ∧
        ps.length = nsfw.length) := by
  refine ⟨?_, ?_, ?_⟩
  · rintro ⟨hpos, hall⟩
    have hlen : (collectOutputs false nsfw fmt).length = 0 := by
      rw [collectOutputs, collectGo_length_enabled]
      rw [List.length_eq_zero]
      rw [List.filter_eq_nil_iff]
      intro b hb
      rw [hall b hb]
      simp
    unfold finalizeOutputs
    rw [if_pos hlen]
  · intro hnall
    have hlen : (collectOutputs false nsfw fmt).length =
        (nsfw.filter (fun b => !b)).length := by
      rw [collectOutputs, collectGo_length_enabled]
    have hpos : (nsfw.filter (fun b => !b)).length ≠ 0 := by
      push_neg at hnall
      obtain ⟨b, hb, hbne⟩ := hnall
      have hbf : b = false := by
        rcases b with _ | _
        · rfl
        · exact absurd rfl hbne
      subst hbf
      have : false ∈ nsfw.filter (fun b => !b) :=
        List.mem_filter.mpr ⟨hb, rfl⟩
      intro hzero
      rw [List.length_eq_zero] at hzero
      rw [hzero] at this
      simp at this
    unfold finalizeOutputs
    rw [if_neg (by rw [hlen]; exact hpos)]
    exact ⟨_, rfl, hlen⟩
  · intro hpos
    have hlen : (collectOutputs true nsfw fmt).length = nsfw.length := by
      rw [collectOutputs, collectGo_length_disabled]
    unfold finalizeOutputs
    rw [if_neg (by rw [hlen]; omega)]
    exact ⟨_, rfl, hlen⟩

/-- C7 witness: both images flagged — the call raises; one of two flagged —
one output survives. -/
theorem predict_safety_filter_witness :
    finalizeOutputs false [true, true] (toL (r"webp")) =
      .error .nsfwAllFiltered ∧
    (∃ ps, finalizeOutputs false [true, false] (toL (r"webp")) = .ok ps ∧
      ps.length = ([true, false].filter (fun b => !b)).length) :=
  ⟨(predict_safety_filter [true, true] (toL (r"webp"))).1 (by decide),
    (predict_safety_filter [true, false] (toL (r"webp"))).2.1 (by decide)⟩

/-! ### `download_weights` (predict.py lines 88-111) -/

/-- Filesystem/network effects of `download_weights`, in order. -/
inductive DWOp
  | makedirs (dir : List Char)
  | httpGet (url : List Char)
  | writeTempFile
  | extractTarInto (dest : List Char)
  | writeFileAt (dest : List Char)
  deriving DecidableEq

/-- Is this effect a tar extraction? -/
def DWOp.isExtractTar : DWOp → Bool
  | .extractTarInto _ => true
  | _ => false

/-- Python `os.path.dirname` for POSIX paths: everything up to the last `/`, with
trailing slashes stripped unless the result is all slashes; empty when the
path has no `/`. -/
def dirname (p : List Char) : List Char :=
  let after := (p.reverse.takeWhile (fun c => c != '/')).length
  let head := p.take (p.length - after)
  if head = [] then head
  else if head.all (fun c => c == '/') then head
  else (head.reverse.dropWhile (fun c => c == '/')).reverse

/-- Model of `download_weights(url, dest, file)` as its effect trace: with
`file=False`, make the destination directory, stream the URL into a
temporary file and extract it as a tar archive into the destination; with
`file=True`, make the parent directory when the destination has one and
stream the URL straight into the destination file — no extraction. -/
def download_weights (url dest : List Char) (file : Bool) : List DWOp :=
  if !file then
    [.makedirs dest, .httpGet url, .writeTempFile, .extractTarInto dest]
  else
    (if dirname dest = [] then [] else [.makedirs (dirname dest)]) ++
      [.httpGet url, .writeFileAt dest]

/-- C8: the `file=False` trace downloads to a temporary file and extracts it
into the (created) destination directory; the `file=True` trace writes the
download directly to the destination and never extracts. -/
theorem download_weights_trace (url dest : List Char) :
    download_weights url dest false =
      [.makedirs dest, .httpGet url, .writeTempFile, .extractTarInto dest] ∧
    DWOp.extractTarInto dest ∈ download_weights url dest false ∧
    download_weights url dest true =
      (if dirname dest = [] then [] else [DWOp.makedirs (dirname dest)]) ++
        [.httpGet url, .writeFileAt dest] ∧
    (download_weights url dest true).all (fun op => !op.isExtractTar) = true ∧
    DWOp.writeFileAt dest ∈ download_weights url dest true := by
  refine ⟨rfl, by simp [download_weights], rfl, ?_, ?_⟩
  · unfold download_weights
    by_cases h : dirname dest = [] <;> simp [h, DWOp.isExtractTar]
  · unfold download_weights
    by_cases h : dirname dest = [] <;> simp [h]

end CyberPony
